import Mathlib

/-!
Verification of the `singer_pathmatch` field-selection engine
(`singer_pathmatch/main.py`).

The catalog's metadata (the external `singer.metadata` breadcrumb-to-properties
mapping) and the external gitignore-style glob matcher (`WildmatchPattern`) are
collaborators outside the engine; they are embedded as, respectively, an
association list keyed by breadcrumbs and an abstract matcher type `μ` together
with an interpretation `M : μ → String → Bool`.  Everything else is translated
function-by-function from `main.py`.
-/

namespace SingerPathmatch

/-- The properties a breadcrumb carries in a stream's metadata mapping: the
`inclusion` classification and the optional `selected` flag (the two keys the
engine reads or writes). -/
structure Props where
  inclusion : Option String
  selected : Option Bool
deriving DecidableEq

/-- A breadcrumb: a tuple of path segments addressing a node of a stream. -/
abbrev Breadcrumb := List String

/-- The compiled metadata mapping of one stream, breadcrumb to properties, in
insertion order.  Well-formed catalogs have unique breadcrumbs. -/
abbrev Meta := List (Breadcrumb × Props)

/-- A stream of the catalog: its name and its metadata mapping. -/
structure Stream where
  stream : String
  metadata : Meta
deriving DecidableEq

/-- A catalog: an ordered sequence of streams. -/
structure Catalog where
  streams : List Stream
deriving DecidableEq

/-- The `Field` namedtuple of `main.py`. -/
structure Field where
  stream_name : String
  breadcrumb : Breadcrumb
  path : String
deriving DecidableEq

/-- The `FieldPattern` namedtuple of `main.py`: original stripped string,
negation flag, and the compiled matcher (abstract type `μ`; in Python the
compiled `WildmatchPattern` object, compared by identity). -/
structure FieldPattern (μ : Type) where
  string : String
  negation : Bool
  compiled : μ
deriving DecidableEq

/-- First entry of the mapping at a given breadcrumb (Python `dict` lookup). -/
def lookupProps : Meta → Breadcrumb → Option Props
  | [], _ => none
  | e :: rest, b => if e.1 = b then some e.2 else lookupProps rest b

/-- Python `stream_map.get(b, \x7b\x7d).get("inclusion")`. -/
def inclusionAt (m : Meta) (b : Breadcrumb) : Option String :=
  match lookupProps m b with
  | some p => p.inclusion
  | none => none

/-- Python `make_path`: `"/".join((stream_name,) + breadcrumb[1:])`. -/
def make_path (stream_name : String) (breadcrumb : Breadcrumb) : String :=
  String.intercalate "/" (stream_name :: breadcrumb.drop 1)

/-- The `matchable_inclusions` set built at the top of the per-stream loop in
`yield_available_fields`: `{"available"}`, extended with `"automatic"` when the
stream's root-level inclusion is `"available"`. -/
def matchable_inclusions (m : Meta) : List String :=
  if inclusionAt m [] = some "available" then ["available", "automatic"]
  else ["available"]

/-- Python `field.get("inclusion") in matchable_inclusions` (a missing
`inclusion` key is `None`, never a member). -/
def field_matchable (matchable : List String) (p : Props) : Bool :=
  match p.inclusion with
  | some i => matchable.contains i
  | none => false

/-- The two `continue` guards of the inner loop of `yield_available_fields`:
the breadcrumb must start with `"properties"` and the inclusion must be
matchable. -/
def eligible (matchable : List String) (e : Breadcrumb × Props) : Bool :=
  decide (e.1.take 1 = ["properties"]) && field_matchable matchable e.2

/-- The body of the per-stream loop of `yield_available_fields`. -/
def yield_stream_fields (stream_name : String) (m : Meta) : List Field :=
  (m.filter (eligible (matchable_inclusions m))).map
    (fun e => ⟨stream_name, e.1, make_path stream_name e.1⟩)

/-- Python `yield_available_fields`, on catalogs where every record carries its
expected keys. -/
def yield_available_fields (c : Catalog) : List Field :=
  c.streams.flatMap fun st => yield_stream_fields st.stream st.metadata

/-- A stream record as loaded from JSON: either key may be missing. -/
structure StreamRec where
  stream : Option String
  metadata : Option Meta
deriving DecidableEq

/-- A catalog record as loaded from JSON: the `streams` key may be missing. -/
structure CatalogRec where
  streams : Option (List StreamRec)
deriving DecidableEq

/-- The per-stream loop of `yield_available_fields` over raw stream records:
`stream["stream"]` and `stream["metadata"]` raise `KeyError` when absent. -/
def yield_fieldsE_streams : List StreamRec → Except String (List Field)
  | [] => .ok []
  | st :: rest =>
    match st.stream, st.metadata with
    | none, _ => .error "KeyError: stream"
    | some _, none => .error "KeyError: metadata"
    | some name, some m =>
      match yield_fieldsE_streams rest with
      | .ok fs => .ok (yield_stream_fields name m ++ fs)
      | .error e => .error e

/-- Python `yield_available_fields` on a raw catalog record:
`catalog["streams"]` raises `KeyError` when absent, and each stream record's
missing keys raise as in `yield_fieldsE_streams`. -/
def yield_available_fieldsE (c : CatalogRec) : Except String (List Field) :=
  match c.streams with
  | none => .error "KeyError: streams"
  | some ss => yield_fieldsE_streams ss

/-- Embed a fully-keyed stream into a raw stream record. -/
def StreamRec.of (st : Stream) : StreamRec :=
  ⟨some st.stream, some st.metadata⟩

/-- Embed a fully-keyed catalog into a raw catalog record. -/
def CatalogRec.of (c : Catalog) : CatalogRec :=
  ⟨some (c.streams.map StreamRec.of)⟩

/-- Python `raw_string.strip()`: remove leading and trailing whitespace. -/
def pyStrip (s : String) : String :=
  ⟨((s.data.dropWhile Char.isWhitespace).reverse.dropWhile Char.isWhitespace).reverse⟩

/-- Python `string.startswith(c)` for a single-character prefix. -/
def headIs (c : Char) (s : String) : Bool :=
  match s.data with
  | c2 :: _ => c2 == c
  | [] => false

/-- Python `string[1:]`. -/
def dropFirst (s : String) : String :=
  ⟨s.data.drop 1⟩

/-- Python `yield_patterns`: strip each line, skip lines starting with `#`,
set the negation flag from a leading `!`, and compile (via the external
`compile`) the text after the `!` for negation lines, the whole line
otherwise. -/
def yield_patterns {μ : Type} (compile : String → μ) (strings : List String) :
    List (FieldPattern μ) :=
  strings.filterMap fun raw =>
    let s := pyStrip raw
    if headIs '#' s then none
    else if headIs '!' s then some ⟨s, true, compile (dropFirst s)⟩
    else some ⟨s, false, compile s⟩

/-- One iteration of the loop in `match_path`: the pattern updates the state
exactly when its matcher matches the path and its negation flag equals the
current polarity. -/
def matchStep {μ : Type} (M : μ → String → Bool) (path : String)
    (st : Option (FieldPattern μ) × Bool) (pat : FieldPattern μ) :
    Option (FieldPattern μ) × Bool :=
  if M pat.compiled path && (pat.negation == st.2) then (some pat, !st.2) else st

/-- Python `match_path`: scan the patterns in order from `(None, False)`. -/
def match_path {μ : Type} (M : μ → String → Bool)
    (patterns : List (FieldPattern μ)) (path : String) :
    Option (FieldPattern μ) × Bool :=
  patterns.foldl (matchStep M path) (none, false)

/-- The loop of `match_catalog`, with the `matched`/`unmatched` accumulators
and the shrinking `unused` set threaded explicitly.  Python's `unused` is a
hash set; it is embedded as a duplicate-free list (its iteration order only
ever feeds `sorted`). -/
def match_fields_go {μ : Type} [DecidableEq μ] (M : μ → String → Bool)
    (patterns : List (FieldPattern μ)) :
    List Field → List Field → List Field → List (FieldPattern μ) →
    List Field × List Field × List (FieldPattern μ)
  | [], matched, unmatched, unused => (matched, unmatched, unused)
  | f :: fs, matched, unmatched, unused =>
    let r := match_path M patterns f.path
    match_fields_go M patterns fs
      (if r.2 then matched ++ [f] else matched)
      (if r.2 then unmatched else unmatched ++ [f])
      (match r.1 with
       | some p => unused.erase p
       | none => unused)

/-- Python `match_catalog`: run `match_path` over every available field,
partitioning into matched/unmatched and discarding used patterns from the
initially-full `unused` set (`set(patterns)`, embedded as `patterns.dedup`). -/
def match_catalog {μ : Type} [DecidableEq μ] (M : μ → String → Bool)
    (patterns : List (FieldPattern μ)) (c : Catalog) :
    List Field × List Field × List (FieldPattern μ) :=
  match_fields_go M patterns (yield_available_fields c) [] [] patterns.dedup

/-- The external `singer.metadata.write(stream_map, b, "selected", v)`.
Modelled from the spec: the metadata mapping is a breadcrumb-keyed map; writing
updates the entry's `selected` property in place, inserting a fresh entry when
the breadcrumb is absent. -/
def writeSelected : Meta → Breadcrumb → Bool → Meta
  | [], b, v => [(b, ⟨none, some v⟩)]
  | e :: rest, b, v =>
    if e.1 = b then (e.1, { e.2 with selected := some v }) :: rest
    else e :: writeSelected rest b v

/-- The per-stream body of `produce_catalog`: write `selected=true` at every
matched field's breadcrumb of this stream, then write the stream-root
`selected` flag when the root inclusion is `"available"`. -/
def produce_stream (matched : List Field) (st : Stream) : Stream :=
  let stream_matches := matched.filter fun f => f.stream_name == st.stream
  let m1 := stream_matches.foldl (fun acc f => writeSelected acc f.breadcrumb true)
    st.metadata
  let m2 := if inclusionAt m1 [] = some "available" then
      writeSelected m1 [] (decide (0 < stream_matches.length))
    else m1
  ⟨st.stream, m2⟩

/-- Python `produce_catalog`, returning the annotated catalog (serialization is
external). -/
def produce_catalog (c : Catalog) (matched : List Field) : Catalog :=
  ⟨c.streams.map (produce_stream matched)⟩

/-- Python `sorted(p.string for p in unused)`. -/
def sorted_strings {μ : Type} (unused : List (FieldPattern μ)) : List String :=
  List.insertionSort (· ≤ ·) (unused.map FieldPattern.string)

/-- Python `main`, with I/O externalized: the result is either the
`UnusedPatternsError` payload (the sorted unused pattern strings) or the
arguments handed to the selected producer. -/
def main {μ : Type} [DecidableEq μ] (M : μ → String → Bool)
    (compile : String → μ) (catalog : Catalog)
    (patterns_file : Option (List String)) (ignore_unused_patterns : Bool) :
    Except (List String) (Catalog × List Field × List Field) :=
  let patterns := yield_patterns compile (patterns_file.getD ["**"])
  let r := match_catalog M patterns catalog
  if 0 < r.2.2.length ∧ ignore_unused_patterns = false then
    .error (sorted_strings r.2.2)
  else
    .ok (catalog, r.1, r.2.1)

/-- The catalog-mode pipeline: match, then annotate the catalog with the
matched fields. -/
def pipeline {μ : Type} [DecidableEq μ] (M : μ → String → Bool)
    (patterns : List (FieldPattern μ)) (c : Catalog) : Catalog :=
  produce_catalog c (match_catalog M patterns c).1

/-- The state invariant of the `match_path` loop: the polarity is `false` while
no pattern has applied, and afterwards it is the flip of the negation flag of
the last pattern that applied. -/
def MatchInv {μ : Type} (st : Option (FieldPattern μ) × Bool) : Prop :=
  (st.1 = none → st.2 = false) ∧ ∀ p, st.1 = some p → st.2 = !p.negation

/-- Whether a field's path ends up matched (final polarity). -/
def fieldPos {μ : Type} (M : μ → String → Bool) (patterns : List (FieldPattern μ))
    (f : Field) : Bool :=
  (match_path M patterns f.path).2

/-- The update of the `unused` set performed for one field. -/
def eraseStep {μ : Type} [DecidableEq μ] (M : μ → String → Bool)
    (patterns : List (FieldPattern μ)) (unused : List (FieldPattern μ)) (f : Field) :
    List (FieldPattern μ) :=
  match (match_path M patterns f.path).1 with
  | some p => unused.erase p
  | none => unused

/-- The field-write loop of `produce_stream`. -/
def writeFold (fs : List Field) (m : Meta) : Meta :=
  fs.foldl (fun acc f => writeSelected acc f.breadcrumb true) m

/-- The metadata transformation `produce_stream` performs on one stream, as a
function of the stream's matched fields and the root flag value. -/
def annotMeta (sm : List Field) (meta : Meta) (v : Bool) : Meta :=
  if inclusionAt (writeFold sm meta) [] = some "available" then
    writeSelected (writeFold sm meta) [] v
  else writeFold sm meta

/-! ### Lemmas about `match_path` -/

section MatchPath

variable {μ : Type} (M : μ → String → Bool) (path : String)

theorem matchStep_inv {st : Option (FieldPattern μ) × Bool}
    (h : MatchInv st) (pat : FieldPattern μ) : MatchInv (matchStep M path st pat) := by
  unfold matchStep
  by_cases hc : (M pat.compiled path && (pat.negation == st.2)) = true
  · rw [if_pos hc]
    have hneg : pat.negation = st.2 := eq_of_beq ((Bool.and_eq_true _ _).mp hc).2
    constructor
    · intro hnone
      simp at hnone
    · intro p hp
      have hpp : pat = p := by simpa using hp
      subst hpp
      simp [hneg]
  · rw [if_neg hc]
    exact h

theorem foldl_matchStep_inv (ps : List (FieldPattern μ))
    {st : Option (FieldPattern μ) × Bool} (h : MatchInv st) :
    MatchInv (ps.foldl (matchStep M path) st) := by
  induction ps generalizing st with
  | nil => exact h
  | cons p ps ih => exact ih (matchStep_inv M path h p)

theorem match_path_inv (ps : List (FieldPattern μ)) :
    MatchInv (match_path M ps path) :=
  foldl_matchStep_inv M path ps ⟨fun _ => rfl, fun p hp => by cases hp⟩

theorem foldl_matchStep_no_match {ps : List (FieldPattern μ)}
    (h : ∀ p ∈ ps, M p.compiled path = false)
    (st : Option (FieldPattern μ) × Bool) :
    ps.foldl (matchStep M path) st = st := by
  induction ps generalizing st with
  | nil => rfl
  | cons p ps ih =>
    have hp : M p.compiled path = false := h p (List.mem_cons_self p ps)
    have hstep : matchStep M path st p = st := by
      unfold matchStep
      simp [hp]
    rw [List.foldl_cons, hstep]
    exact ih (fun q hq => h q (List.mem_cons_of_mem p hq)) st

theorem foldl_matchStep_stuck {ps : List (FieldPattern μ)}
    (h : ∀ p ∈ ps, p.negation = false) (o : Option (FieldPattern μ)) :
    ps.foldl (matchStep M path) (o, true) = (o, true) := by
  induction ps with
  | nil => rfl
  | cons p ps ih =>
    have hp : p.negation = false := h p (List.mem_cons_self p ps)
    have hstep : matchStep M path (o, true) p = (o, true) := by
      unfold matchStep
      simp [hp]
    rw [List.foldl_cons, hstep]
    exact ih fun q hq => h q (List.mem_cons_of_mem p hq)

theorem match_path_pos_first {ps : List (FieldPattern μ)}
    (h : ∀ p ∈ ps, p.negation = false) :
    match_path M ps path =
      match ps.find? (fun p => M p.compiled path) with
      | some p => (some p, true)
      | none => (none, false) := by
  induction ps with
  | nil => rfl
  | cons p ps ih =>
    have hp : p.negation = false := h p (List.mem_cons_self p ps)
    have hrest : ∀ q ∈ ps, q.negation = false :=
      fun q hq => h q (List.mem_cons_of_mem p hq)
    by_cases hM : M p.compiled path = true
    · have hstep : matchStep M path (none, false) p = (some p, true) := by
        unfold matchStep
        simp [hp, hM]
      have : match_path M (p :: ps) path = (some p, true) := by
        unfold match_path
        rw [List.foldl_cons, hstep]
        exact foldl_matchStep_stuck M path hrest (some p)
      have hfind : List.find? (fun q => M q.compiled path) (p :: ps) = some p :=
        List.find?_cons_of_pos _ hM
      rw [this, hfind]
    · have hM' : M p.compiled path = false := by
        cases hq : M p.compiled path
        · rfl
        · exact absurd hq hM
      have hstep : matchStep M path (none, false) p = (none, false) := by
        unfold matchStep
        simp [hM']
      have hmp : match_path M (p :: ps) path = match_path M ps path := by
        unfold match_path
        rw [List.foldl_cons, hstep]
      rw [hmp, ih hrest, List.find?_cons_of_neg]
      simp [hM']

end MatchPath

/-! ### Lemmas about `match_catalog` -/

section MatchCatalog

variable {μ : Type} [DecidableEq μ] (M : μ → String → Bool)
variable (patterns : List (FieldPattern μ))

theorem match_fields_go_eq (fs : List Field) :
    ∀ matched unmatched unused,
    match_fields_go M patterns fs matched unmatched unused =
      (matched ++ fs.filter (fieldPos M patterns),
       unmatched ++ fs.filter (fun f => !fieldPos M patterns f),
       fs.foldl (eraseStep M patterns) unused) := by
  induction fs with
  | nil => intro matched unmatched unused; simp [match_fields_go]
  | cons f fs ih =>
    intro matched unmatched unused
    rw [match_fields_go, ih]
    by_cases hpos : fieldPos M patterns f = true
    · simp [fieldPos] at hpos
      simp [List.filter_cons, fieldPos, hpos, eraseStep]
    · have hneg : (match_path M patterns f.path).2 = false := by
        simp [fieldPos] at hpos
        exact hpos
      simp [List.filter_cons, fieldPos, hneg, eraseStep]

theorem match_catalog_eq (c : Catalog) :
    match_catalog M patterns c =
      ((yield_available_fields c).filter (fieldPos M patterns),
       (yield_available_fields c).filter (fun f => !fieldPos M patterns f),
       (yield_available_fields c).foldl (eraseStep M patterns) patterns.dedup) := by
  unfold match_catalog
  rw [match_fields_go_eq]
  simp

theorem foldl_eraseStep_subset (fs : List Field) :
    ∀ unused : List (FieldPattern μ),
    fs.foldl (eraseStep M patterns) unused ⊆ unused := by
  induction fs with
  | nil => intro unused; exact fun q hq => hq
  | cons f fs ih =>
    intro unused
    rw [List.foldl_cons]
    intro q hq
    have hq2 := ih _ hq
    unfold eraseStep at hq2
    cases hm : (match_path M patterns f.path).1 with
    | some p =>
      rw [hm] at hq2
      exact List.erase_subset _ _ hq2
    | none =>
      rw [hm] at hq2
      exact hq2

theorem foldl_eraseStep_nodup (fs : List Field) :
    ∀ unused : List (FieldPattern μ), unused.Nodup →
    (fs.foldl (eraseStep M patterns) unused).Nodup := by
  induction fs with
  | nil => intro unused h; exact h
  | cons f fs ih =>
    intro unused h
    rw [List.foldl_cons]
    apply ih
    unfold eraseStep
    cases (match_path M patterns f.path).1 with
    | some p => exact h.erase p
    | none => exact h

theorem mem_foldl_eraseStep (fs : List Field) :
    ∀ (unused : List (FieldPattern μ)), unused.Nodup → ∀ q,
    (q ∈ fs.foldl (eraseStep M patterns) unused ↔
      q ∈ unused ∧ ∀ f ∈ fs, (match_path M patterns f.path).1 ≠ some q) := by
  induction fs with
  | nil =>
    intro unused _ q
    simp
  | cons f fs ih =>
    intro unused hnd q
    rw [List.foldl_cons]
    constructor
    · intro hq
      have hnd2 : (eraseStep M patterns unused f).Nodup := by
        unfold eraseStep
        cases (match_path M patterns f.path).1 with
        | some p => exact hnd.erase p
        | none => exact hnd
      have h2 := (ih _ hnd2 q).mp hq
      unfold eraseStep at h2
      cases hm : (match_path M patterns f.path).1 with
      | some p =>
        rw [hm] at h2
        have hmem := (hnd.mem_erase_iff).mp h2.1
        refine ⟨hmem.2, ?_⟩
        intro g hg
        rcases List.mem_cons.mp hg with hg | hg
        · subst hg
          rw [hm]
          intro hc
          injection hc with hpq
          exact hmem.1 hpq.symm
        · exact h2.2 g hg
      | none =>
        rw [hm] at h2
        refine ⟨h2.1, ?_⟩
        intro g hg
        rcases List.mem_cons.mp hg with hg | hg
        · subst hg
          rw [hm]
          intro hc
          cases hc
        · exact h2.2 g hg
    · intro ⟨hq, hall⟩
      have hnd2 : (eraseStep M patterns unused f).Nodup := by
        unfold eraseStep
        cases (match_path M patterns f.path).1 with
        | some p => exact hnd.erase p
        | none => exact hnd
      apply (ih _ hnd2 q).mpr
      refine ⟨?_, fun g hg => hall g (List.mem_cons_of_mem f hg)⟩
      unfold eraseStep
      cases hm : (match_path M patterns f.path).1 with
      | some p =>
        have hne : q ≠ p := by
          intro he
          exact hall f (List.mem_cons_self f fs) (by rw [hm, he])
        exact (hnd.mem_erase_iff).mpr ⟨hne, hq⟩
      | none => exact hq

end MatchCatalog

/-! ### Lemmas about the field walker -/

section Walker

theorem mem_yield_stream_fields {name : String} {m : Meta} {f : Field} :
    f ∈ yield_stream_fields name m ↔
      ∃ e ∈ m, eligible (matchable_inclusions m) e = true ∧
        f = ⟨name, e.1, make_path name e.1⟩ := by
  unfold yield_stream_fields
  simp only [List.mem_map, List.mem_filter]
  constructor
  · rintro ⟨e, ⟨he, helig⟩, hf⟩
    exact ⟨e, he, helig, hf.symm⟩
  · rintro ⟨e, he, helig, hf⟩
    exact ⟨e, ⟨he, helig⟩, hf.symm⟩

theorem mem_yield_available_fields {c : Catalog} {f : Field} :
    f ∈ yield_available_fields c ↔
      ∃ st ∈ c.streams, f ∈ yield_stream_fields st.stream st.metadata := by
  unfold yield_available_fields
  simp [List.mem_flatMap]

theorem walker_breadcrumb_shape {c : Catalog} {f : Field}
    (h : f ∈ yield_available_fields c) : f.breadcrumb.take 1 = ["properties"] := by
  rcases mem_yield_available_fields.mp h with ⟨st, _, hf⟩
  rcases mem_yield_stream_fields.mp hf with ⟨e, _, helig, hfe⟩
  unfold eligible at helig
  have := (Bool.and_eq_true _ _).mp helig
  have h1 : e.1.take 1 = ["properties"] := of_decide_eq_true this.1
  rw [hfe]
  exact h1

end Walker

/-! ### Lemmas about metadata writes -/

section Writes

theorem lookupProps_writeSelected_self (m : Meta) (b : Breadcrumb) (v : Bool) :
    lookupProps (writeSelected m b v) b = some ⟨inclusionAt m b, some v⟩ := by
  induction m with
  | nil => simp [writeSelected, lookupProps, inclusionAt]
  | cons e rest ih =>
    by_cases he : e.1 = b
    · simp [writeSelected, he, lookupProps, inclusionAt]
    · simp [writeSelected, he, lookupProps, inclusionAt, ih]

theorem lookupProps_writeSelected_ne (m : Meta) {b b2 : Breadcrumb} (v : Bool)
    (h : b2 ≠ b) :
    lookupProps (writeSelected m b v) b2 = lookupProps m b2 := by
  induction m with
  | nil => simp [writeSelected, lookupProps, Ne.symm h]
  | cons e rest ih =>
    rw [writeSelected]
    by_cases he : e.1 = b
    · rw [if_pos he]
      have hne : e.1 ≠ b2 := by
        rw [he]
        exact Ne.symm h
      simp only [lookupProps]
      rw [if_neg hne, if_neg hne]
    · rw [if_neg he]
      simp only [lookupProps]
      by_cases he3 : e.1 = b2
      · rw [if_pos he3, if_pos he3]
      · rw [if_neg he3, if_neg he3, ih]

theorem inclusionAt_writeSelected (m : Meta) (b b2 : Breadcrumb) (v : Bool) :
    inclusionAt (writeSelected m b v) b2 = inclusionAt m b2 := by
  by_cases h : b2 = b
  · subst h
    rw [inclusionAt, lookupProps_writeSelected_self]
  · rw [inclusionAt, lookupProps_writeSelected_ne m v h, inclusionAt]

theorem writeSelected_id {b : Breadcrumb} {v : Bool} {p : Props} {m : Meta}
    (hl : lookupProps m b = some p) (hs : p.selected = some v) :
    writeSelected m b v = m := by
  induction m with
  | nil => cases hl
  | cons e rest ih =>
    obtain ⟨b1, p1⟩ := e
    by_cases he : b1 = b
    · simp only [lookupProps, if_pos he] at hl
      injection hl with hl
      subst hl
      obtain ⟨inc, sel⟩ := p1
      simp only [Props.mk.injEq] at hs ⊢
      rw [writeSelected]
      simp only [if_pos he]
      rw [show sel = some v from hs]
    · simp only [lookupProps, if_neg he] at hl
      rw [writeSelected]
      simp only [if_neg he]
      rw [ih hl]

theorem matchable_inclusions_writeSelected (m : Meta) (b : Breadcrumb) (v : Bool) :
    matchable_inclusions (writeSelected m b v) = matchable_inclusions m := by
  unfold matchable_inclusions
  rw [inclusionAt_writeSelected]

theorem filter_map_writeSelected (mat : List String) (name : String)
    (m : Meta) (b : Breadcrumb) (v : Bool) :
    ((writeSelected m b v).filter (eligible mat)).map
        (fun e => (⟨name, e.1, make_path name e.1⟩ : Field)) =
      (m.filter (eligible mat)).map
        (fun e => (⟨name, e.1, make_path name e.1⟩ : Field)) := by
  induction m with
  | nil =>
    have : eligible mat (b, ⟨none, some v⟩) = false := by
      unfold eligible field_matchable
      simp
    simp [writeSelected, List.filter_cons, this]
  | cons e rest ih =>
    by_cases he : e.1 = b
    · rw [writeSelected, if_pos he]
      have helig : eligible mat (e.1, { e.2 with selected := some v }) = eligible mat e := by
        unfold eligible field_matchable
        rfl
      by_cases hk : eligible mat e = true
      · rw [List.filter_cons, List.filter_cons]
        rw [helig, hk]
        simp
      · have hk2 : eligible mat e = false := Bool.eq_false_iff.mpr hk
        rw [List.filter_cons, List.filter_cons, helig, hk2]
        simp
    · rw [writeSelected, if_neg he]
      by_cases hk : eligible mat e = true
      · simp only [List.filter_cons, hk, if_true, List.map_cons]
        rw [ih]
      · have hk2 : eligible mat e = false := Bool.eq_false_iff.mpr hk
        simp only [List.filter_cons, hk2, Bool.false_eq_true, if_false]
        exact ih

theorem yield_stream_fields_writeSelected (name : String) (m : Meta)
    (b : Breadcrumb) (v : Bool) :
    yield_stream_fields name (writeSelected m b v) = yield_stream_fields name m := by
  unfold yield_stream_fields
  rw [matchable_inclusions_writeSelected]
  exact filter_map_writeSelected _ name m b v

end Writes

/-! ### Lemmas about the write loop of `produce_stream` -/

section WriteFold

theorem writeFold_nil (m : Meta) : writeFold [] m = m := rfl

theorem writeFold_cons (f : Field) (fs : List Field) (m : Meta) :
    writeFold (f :: fs) m = writeFold fs (writeSelected m f.breadcrumb true) := rfl

theorem inclusionAt_writeFold (fs : List Field) (m : Meta) (b : Breadcrumb) :
    inclusionAt (writeFold fs m) b = inclusionAt m b := by
  induction fs generalizing m with
  | nil => rfl
  | cons f fs ih =>
    rw [writeFold_cons, ih, inclusionAt_writeSelected]

theorem yield_stream_fields_writeFold (name : String) (fs : List Field) (m : Meta) :
    yield_stream_fields name (writeFold fs m) = yield_stream_fields name m := by
  induction fs generalizing m with
  | nil => rfl
  | cons f fs ih =>
    rw [writeFold_cons, ih, yield_stream_fields_writeSelected]

theorem lookupProps_writeFold_not_mem (fs : List Field) (m : Meta) {b : Breadcrumb}
    (h : ∀ f ∈ fs, f.breadcrumb ≠ b) :
    lookupProps (writeFold fs m) b = lookupProps m b := by
  induction fs generalizing m with
  | nil => rfl
  | cons f fs ih =>
    rw [writeFold_cons, ih _ fun g hg => h g (List.mem_cons_of_mem f hg)]
    exact lookupProps_writeSelected_ne m true
      (Ne.symm (h f (List.mem_cons_self f fs)))

theorem lookupProps_writeFold_mem (fs : List Field) (m : Meta) {b : Breadcrumb}
    (h : b ∈ fs.map Field.breadcrumb) :
    lookupProps (writeFold fs m) b = some ⟨inclusionAt m b, some true⟩ := by
  induction fs generalizing m with
  | nil => cases h
  | cons f fs ih =>
    rw [writeFold_cons]
    by_cases hmem : b ∈ fs.map Field.breadcrumb
    · rw [ih _ hmem, inclusionAt_writeSelected]
    · have hb : f.breadcrumb = b := by
        rcases List.mem_map.mp h with ⟨g, hg, hgb⟩
        rcases List.mem_cons.mp hg with hg | hg
        · rw [← hgb, hg]
        · exact absurd (List.mem_map.mpr ⟨g, hg, hgb⟩) hmem
      have hnot : ∀ g ∈ fs, g.breadcrumb ≠ b := by
        intro g hg hc
        exact hmem (List.mem_map.mpr ⟨g, hg, hc⟩)
      rw [lookupProps_writeFold_not_mem fs _ hnot, hb,
        lookupProps_writeSelected_self]

theorem writeFold_id (fs : List Field) (m : Meta)
    (h : ∀ f ∈ fs, ∃ p, lookupProps m f.breadcrumb = some p ∧ p.selected = some true) :
    writeFold fs m = m := by
  induction fs with
  | nil => rfl
  | cons f fs ih =>
    rw [writeFold_cons]
    obtain ⟨p, hp, hps⟩ := h f (List.mem_cons_self f fs)
    rw [writeSelected_id hp hps]
    exact ih fun g hg => h g (List.mem_cons_of_mem f hg)

end WriteFold

/-! ### Lemmas about `produce_stream` and `produce_catalog` -/

section Produce

theorem produce_stream_def (matched : List Field) (st : Stream) :
    produce_stream matched st =
      ⟨st.stream,
        let sm := matched.filter fun f => f.stream_name == st.stream
        let m1 := writeFold sm st.metadata
        if inclusionAt m1 [] = some "available" then
          writeSelected m1 [] (decide (0 < sm.length))
        else m1⟩ := rfl

theorem produce_stream_name (matched : List Field) (st : Stream) :
    (produce_stream matched st).stream = st.stream := rfl

theorem yield_stream_fields_produce_stream (matched : List Field) (st : Stream) :
    yield_stream_fields (produce_stream matched st).stream
        (produce_stream matched st).metadata =
      yield_stream_fields st.stream st.metadata := by
  rw [produce_stream_def]
  by_cases hroot : inclusionAt
      (writeFold (matched.filter fun f => f.stream_name == st.stream) st.metadata) []
      = some "available"
  · simp only [hroot, if_pos]
    rw [yield_stream_fields_writeSelected, yield_stream_fields_writeFold]
  · simp only [hroot, if_neg, if_false]
    rw [yield_stream_fields_writeFold]

theorem yield_available_fields_produce_catalog (c : Catalog) (matched : List Field) :
    yield_available_fields (produce_catalog c matched) = yield_available_fields c := by
  unfold yield_available_fields produce_catalog
  rw [List.flatMap_map]
  apply List.flatMap_congr
  intro st _
  exact yield_stream_fields_produce_stream matched st

end Produce

/-! ### Idempotence of the catalog-mode pipeline -/

section Idem

theorem produce_stream_metadata (matched : List Field) (st : Stream) :
    (produce_stream matched st).metadata =
      annotMeta (matched.filter fun f => f.stream_name == st.stream) st.metadata
        (decide (0 < (matched.filter fun f => f.stream_name == st.stream).length)) :=
  rfl

theorem produce_stream_eq_annot (matched : List Field) (st : Stream) :
    produce_stream matched st =
      ⟨st.stream,
        annotMeta (matched.filter fun f => f.stream_name == st.stream) st.metadata
          (decide (0 < (matched.filter fun f => f.stream_name == st.stream).length))⟩ :=
  rfl

theorem lookupProps_annotMeta_of_mem (sm : List Field) (meta : Meta) (v : Bool)
    {f : Field} (hf : f ∈ sm) (hb : f.breadcrumb ≠ []) :
    lookupProps (annotMeta sm meta v) f.breadcrumb =
      some ⟨inclusionAt meta f.breadcrumb, some true⟩ := by
  have hm1 : lookupProps (writeFold sm meta) f.breadcrumb =
      some ⟨inclusionAt meta f.breadcrumb, some true⟩ :=
    lookupProps_writeFold_mem sm meta (List.mem_map.mpr ⟨f, hf, rfl⟩)
  unfold annotMeta
  by_cases hroot : inclusionAt (writeFold sm meta) [] = some "available"
  · rw [if_pos hroot, lookupProps_writeSelected_ne _ v hb, hm1]
  · rw [if_neg hroot, hm1]

theorem annotMeta_idem (sm : List Field) (meta : Meta) (v : Bool)
    (hb : ∀ f ∈ sm, f.breadcrumb ≠ []) :
    annotMeta sm (annotMeta sm meta v) v = annotMeta sm meta v := by
  have hsel : ∀ f ∈ sm, ∃ p,
      lookupProps (annotMeta sm meta v) f.breadcrumb = some p ∧ p.selected = some true :=
    fun f hf => ⟨⟨inclusionAt meta f.breadcrumb, some true⟩,
      lookupProps_annotMeta_of_mem sm meta v hf (hb f hf), rfl⟩
  have hW : writeFold sm (annotMeta sm meta v) = annotMeta sm meta v :=
    writeFold_id _ _ hsel
  have hinc : inclusionAt (annotMeta sm meta v) [] = inclusionAt (writeFold sm meta) [] := by
    unfold annotMeta
    by_cases hroot : inclusionAt (writeFold sm meta) [] = some "available"
    · rw [if_pos hroot, inclusionAt_writeSelected]
    · rw [if_neg hroot]
  set m2 := annotMeta sm meta v with hm2
  rw [show annotMeta sm m2 v =
      (if inclusionAt (writeFold sm m2) [] = some "available" then
        writeSelected (writeFold sm m2) [] v
      else writeFold sm m2) from rfl]
  rw [hW, hinc]
  by_cases hroot : inclusionAt (writeFold sm meta) [] = some "available"
  · rw [if_pos hroot]
    have hm2e : m2 = writeSelected (writeFold sm meta) [] v := by
      rw [hm2]
      unfold annotMeta
      rw [if_pos hroot]
    rw [hm2e]
    exact writeSelected_id (lookupProps_writeSelected_self _ _ _) rfl
  · rw [if_neg hroot]

theorem produce_stream_idem (matched : List Field) (st : Stream)
    (hb : ∀ f ∈ matched, f.breadcrumb ≠ []) :
    produce_stream matched (produce_stream matched st) = produce_stream matched st := by
  rw [produce_stream_eq_annot matched st]
  rw [produce_stream_eq_annot matched]
  have : (⟨st.stream,
      annotMeta (matched.filter fun f => f.stream_name == st.stream) st.metadata
        (decide (0 < (matched.filter fun f => f.stream_name == st.stream).length))⟩ : Stream).stream
      = st.stream := rfl
  simp only [this]
  congr 1
  exact annotMeta_idem _ _ _
    fun f hf => hb f (List.mem_of_mem_filter hf)

theorem produce_catalog_idem (c : Catalog) (matched : List Field)
    (hb : ∀ f ∈ matched, f.breadcrumb ≠ []) :
    produce_catalog (produce_catalog c matched) matched = produce_catalog c matched := by
  unfold produce_catalog
  simp only [List.map_map]
  congr 1
  apply List.map_congr_left
  intro st _
  exact produce_stream_idem matched st hb

theorem matched_breadcrumb_ne_nil {μ : Type} [DecidableEq μ] (M : μ → String → Bool)
    (patterns : List (FieldPattern μ)) (c : Catalog) :
    ∀ f ∈ (match_catalog M patterns c).1, f.breadcrumb ≠ [] := by
  intro f hf hc
  rw [match_catalog_eq] at hf
  have hw : f ∈ yield_available_fields c := List.mem_of_mem_filter hf
  have hsh := walker_breadcrumb_shape hw
  rw [hc] at hsh
  cases hsh

theorem pipeline_idem {μ : Type} [DecidableEq μ] (M : μ → String → Bool)
    (patterns : List (FieldPattern μ)) (c : Catalog) :
    pipeline M patterns (pipeline M patterns c) = pipeline M patterns c := by
  unfold pipeline
  have hmatched : (match_catalog M patterns
      (produce_catalog c (match_catalog M patterns c).1)).1 = (match_catalog M patterns c).1 := by
    rw [match_catalog_eq, match_catalog_eq, yield_available_fields_produce_catalog]
  rw [hmatched]
  exact produce_catalog_idem c _ (matched_breadcrumb_ne_nil M patterns c)

end Idem

/-! ### Lemmas about the pattern compiler and the raw-record walker -/

section Compiler

variable {μ : Type} (compile : String → μ)

theorem yield_patterns_append (pre post : List String) :
    yield_patterns compile (pre ++ post) =
      yield_patterns compile pre ++ yield_patterns compile post :=
  List.filterMap_append pre post _

theorem yield_patterns_comment {raw : String} (h : headIs '#' (pyStrip raw) = true) :
    yield_patterns compile [raw] = [] := by
  unfold yield_patterns
  simp [List.filterMap, h]

theorem yield_patterns_empty_line {raw : String} (h : pyStrip raw = "") :
    yield_patterns compile [raw] = [⟨"", false, compile ""⟩] := by
  unfold yield_patterns
  simp only [List.filterMap, h]
  rfl

theorem yield_fieldsE_streams_of (ss : List Stream) :
    yield_fieldsE_streams (ss.map StreamRec.of) =
      .ok (ss.flatMap fun st => yield_stream_fields st.stream st.metadata) := by
  induction ss with
  | nil => rfl
  | cons st ss ih =>
    rw [List.map_cons, yield_fieldsE_streams]
    simp only [StreamRec.of]
    rw [ih]
    rw [List.flatMap_cons]

theorem yield_available_fieldsE_of (c : Catalog) :
    yield_available_fieldsE (CatalogRec.of c) = .ok (yield_available_fields c) := by
  unfold yield_available_fieldsE CatalogRec.of
  exact yield_fieldsE_streams_of c.streams

end Compiler

/-! ### Shared characterizations -/

section Shared

variable {μ : Type} [DecidableEq μ]

theorem mem_unused_iff (M : μ → String → Bool) (patterns : List (FieldPattern μ))
    (c : Catalog) (q : FieldPattern μ) :
    q ∈ (match_catalog M patterns c).2.2 ↔
      q ∈ patterns ∧ ∀ f ∈ yield_available_fields c,
        (match_path M patterns f.path).1 ≠ some q := by
  rw [match_catalog_eq]
  show q ∈ (yield_available_fields c).foldl (eraseStep M patterns) patterns.dedup ↔ _
  rw [mem_foldl_eraseStep M patterns _ _ (List.nodup_dedup patterns) q, List.mem_dedup]

theorem eligible_iff {mat : List String} {e : Breadcrumb × Props} :
    eligible mat e = true ↔
      e.1.take 1 = ["properties"] ∧ ∃ i, e.2.inclusion = some i ∧ i ∈ mat := by
  unfold eligible field_matchable
  rw [Bool.and_eq_true]
  constructor
  · rintro ⟨h1, h2⟩
    refine ⟨of_decide_eq_true h1, ?_⟩
    cases hi : e.2.inclusion with
    | none => rw [hi] at h2; cases h2
    | some i =>
      rw [hi] at h2
      exact ⟨i, rfl, by simpa using h2⟩
  · rintro ⟨h1, i, hi, him⟩
    refine ⟨decide_eq_true h1, ?_⟩
    rw [hi]
    simpa using him

end Shared

/-! ### The claims -/

/-- C1: `match_path` scans the pattern list in order starting from no match
and polarity `false`, and a pattern updates the result exactly when its
matcher matches the path and its negation flag equals the current polarity,
becoming the matching pattern and flipping the polarity.  In particular, on
the pattern list `["a/*", "!a/secret", "a/*"]` whose matchers all match
`"a/secret"`, the result for `"a/secret"` has final polarity `true` and the
third pattern, not the first, as the matching pattern. -/
theorem match_path_gate_and_toggle {μ : Type} (M : μ → String → Bool)
    (ps : List (FieldPattern μ)) (path : String) (m1 m2 m3 : μ)
    (h1 : M m1 "a/secret" = true) (h2 : M m2 "a/secret" = true)
    (h3 : M m3 "a/secret" = true) :
    match_path M ps path = ps.foldl
      (fun st pat =>
        if M pat.compiled path && (pat.negation == st.2) then (some pat, !st.2)
        else st)
      (none, false)
    ∧ match_path M [⟨"a/*", false, m1⟩, ⟨"!a/secret", true, m2⟩, ⟨"a/*", false, m3⟩]
        "a/secret" = (some ⟨"a/*", false, m3⟩, true) := by
  constructor
  · rfl
  · unfold match_path
    simp [matchStep, h1, h2, h3]

/-- Witness for C1 at a concrete matcher. -/
theorem match_path_gate_and_toggle_witness :
    match_path (fun (_ : Nat) (p : String) => p == "a/secret")
      [⟨"a/*", false, 1⟩, ⟨"!a/secret", true, 2⟩, ⟨"a/*", false, 3⟩] "a/secret"
      = (some ⟨"a/*", false, 3⟩, true) :=
  (match_path_gate_and_toggle (fun (_ : Nat) (p : String) => p == "a/secret")
    [] "x" 1 2 3 rfl rfl rfl).2

/-- C2: `match_catalog` partitions the walker's fields: `matched` and
`unmatched` are the order-preserving sublists of the walker output on which
the final polarity is `true` resp. `false`, and their concatenation is a
permutation of the walker output (no field duplicated or omitted).  The
computation is a pure function of its inputs, hence deterministic. -/
theorem match_catalog_partition {μ : Type} [DecidableEq μ] (M : μ → String → Bool)
    (ps : List (FieldPattern μ)) (c : Catalog) :
    (match_catalog M ps c).1 =
      (yield_available_fields c).filter (fun f => (match_path M ps f.path).2)
    ∧ (match_catalog M ps c).2.1 =
      (yield_available_fields c).filter (fun f => !(match_path M ps f.path).2)
    ∧ ((match_catalog M ps c).1 ++ (match_catalog M ps c).2.1).Perm
        (yield_available_fields c) := by
  refine ⟨?_, ?_, ?_⟩
  · rw [match_catalog_eq]
    rfl
  · rw [match_catalog_eq]
    rfl
  · rw [match_catalog_eq]
    exact List.filter_append_perm _ _

/-- C3: the walker yields a field exactly when its breadcrumb starts with
`"properties"` and its inclusion lies in the stream's matchable set, which is
`{"available"}` unless the stream's root-level inclusion is `"available"`, in
which case it is `{"available", "automatic"}`. -/
theorem yield_available_fields_spec (c : Catalog) (f : Field) :
    (f ∈ yield_available_fields c ↔
      ∃ st ∈ c.streams, ∃ e ∈ st.metadata,
        e.1.take 1 = ["properties"] ∧
        (∃ i, e.2.inclusion = some i ∧ i ∈ matchable_inclusions st.metadata) ∧
        f = ⟨st.stream, e.1, make_path st.stream e.1⟩)
    ∧ ∀ m : Meta,
      matchable_inclusions m =
        if inclusionAt m [] = some "available" then ["available", "automatic"]
        else ["available"] := by
  constructor
  · rw [mem_yield_available_fields]
    constructor
    · rintro ⟨st, hst, hf⟩
      rcases mem_yield_stream_fields.mp hf with ⟨e, he, helig, hfe⟩
      rcases eligible_iff.mp helig with ⟨hp1, hp2⟩
      exact ⟨st, hst, e, he, hp1, hp2, hfe⟩
    · rintro ⟨st, hst, e, he, hp1, hp2, hfe⟩
      exact ⟨st, hst, mem_yield_stream_fields.mpr ⟨e, he, eligible_iff.mpr ⟨hp1, hp2⟩, hfe⟩⟩
  · intro m
    rfl

/-- C9: the invariant of `match_path`'s result: the polarity is `false` when
no pattern matched, it is the flip of the matching pattern's negation flag
otherwise; hence polarity `true` implies a positive matching pattern, and a
path matched by no pattern yields `(none, false)`. -/
theorem match_path_result_invariant {μ : Type} (M : μ → String → Bool)
    (ps : List (FieldPattern μ)) (path : String) :
    ((match_path M ps path).1 = none → (match_path M ps path).2 = false)
    ∧ (∀ p, (match_path M ps path).1 = some p →
        (match_path M ps path).2 = !p.negation)
    ∧ ((match_path M ps path).2 = true →
        ∃ p, (match_path M ps path).1 = some p ∧ p.negation = false)
    ∧ ((∀ p ∈ ps, M p.compiled path = false) →
        match_path M ps path = (none, false)) := by
  have hinv := match_path_inv M path ps
  refine ⟨hinv.1, hinv.2, ?_, ?_⟩
  · intro htrue
    cases hm : (match_path M ps path).1 with
    | none =>
      rw [hinv.1 hm] at htrue
      cases htrue
    | some p =>
      refine ⟨p, rfl, ?_⟩
      have hneg := hinv.2 p hm
      rw [hneg] at htrue
      simpa using htrue
  · intro hnone
    unfold match_path
    exact foldl_matchStep_no_match M path hnone _

/-- Witness for C9 at a concrete non-matching pattern list. -/
theorem match_path_result_invariant_witness :
    match_path (fun (_ : Nat) (_ : String) => false) [⟨"x", false, 0⟩] "y"
      = (none, false) :=
  (match_path_result_invariant (fun (_ : Nat) (_ : String) => false)
    [⟨"x", false, 0⟩] "y").2.2.2 (fun _ _ => rfl)

/-- C10: when every pattern is positive, `match_path` returns the FIRST
pattern whose matcher matches the path (with polarity `true`), and a pattern
stays in `match_catalog`'s unused set exactly when it is never the returned
matching pattern of any walker field. -/
theorem match_path_first_positive_wins {μ : Type} [DecidableEq μ]
    (M : μ → String → Bool) (ps : List (FieldPattern μ)) (path : String)
    (c : Catalog) (h : ∀ p ∈ ps, p.negation = false) :
    (match_path M ps path =
      match ps.find? (fun p => M p.compiled path) with
      | some p => (some p, true)
      | none => (none, false))
    ∧ (∀ q, q ∈ (match_catalog M ps c).2.2 ↔
        q ∈ ps ∧ ∀ f ∈ yield_available_fields c,
          (match_path M ps f.path).1 ≠ some q) :=
  ⟨match_path_pos_first M path h, fun q => mem_unused_iff M ps c q⟩

/-- Witness for C10: with two positive patterns both matching, the first is
returned. -/
theorem match_path_first_positive_wins_witness :
    match_path (fun (_ : Nat) (_ : String) => true)
      [⟨"**", false, 0⟩, ⟨"*", false, 1⟩] "x"
      = (some ⟨"**", false, 0⟩, true) := by
  have hneg : ∀ p ∈ [(⟨"**", false, 0⟩ : FieldPattern Nat), ⟨"*", false, 1⟩],
      p.negation = false := by
    intro p hp
    rcases List.mem_cons.mp hp with hp | hp
    · rw [hp]
    · rw [List.mem_singleton.mp hp]
  have h := (match_path_first_positive_wins (fun (_ : Nat) (_ : String) => true)
    [⟨"**", false, 0⟩, ⟨"*", false, 1⟩] "x" ⟨[]⟩ hneg).1
  rw [h]
  rfl

/-- C4 counterexample: an empty-after-strip line is NOT skipped by the
pattern compiler — it yields a pattern record with the empty string, and that
record can appear in the unused-pattern error. -/
theorem empty_line_counterexample :
    yield_patterns (fun s => s) [" "] = [⟨"", false, ""⟩]
    ∧ main (fun (_ : String) (_ : String) => false) (fun s => s) ⟨[]⟩
        (some [" "]) false = .error [""] :=
  ⟨rfl, rfl⟩

/-- C4 (amended): a line starting with `#` after stripping is skipped
entirely by the pattern compiler; an empty-after-strip line is NOT skipped:
it yields a pattern record with the empty string and negation `false`. -/
theorem yield_patterns_skip_behavior {μ : Type} (compile : String → μ)
    (pre post : List String) (raw : String) :
    (headIs '#' (pyStrip raw) = true →
      yield_patterns compile (pre ++ raw :: post) =
        yield_patterns compile (pre ++ post))
    ∧ (pyStrip raw = "" →
      yield_patterns compile (pre ++ raw :: post) =
        yield_patterns compile pre ++
          ⟨"", false, compile ""⟩ :: yield_patterns compile post) := by
  have hsplit : pre ++ raw :: post = pre ++ [raw] ++ post := by simp
  constructor
  · intro h
    rw [hsplit, yield_patterns_append, yield_patterns_append,
      yield_patterns_comment compile h, yield_patterns_append]
    simp
  · intro h
    rw [hsplit, yield_patterns_append, yield_patterns_append,
      yield_patterns_empty_line compile h]
    simp

/-- Witness for C4 (amended) at concrete lines. -/
theorem yield_patterns_skip_behavior_witness :
    yield_patterns (fun s => s) ["a", " # c", "b"] =
      yield_patterns (fun s => s) ["a", "b"]
    ∧ yield_patterns (fun s => s) ["a", "  ", "b"] =
        yield_patterns (fun s => s) ["a"] ++
          ⟨"", false, ""⟩ :: yield_patterns (fun s => s) ["b"] :=
  ⟨(yield_patterns_skip_behavior (fun s => s) ["a"] ["b"] " # c").1 rfl,
   (yield_patterns_skip_behavior (fun s => s) ["a"] ["b"] "  ").2 rfl⟩

/-- C5 counterexample: a stream record lacking its `stream` key makes the
walker raise a `KeyError` instead of contributing no fields. -/
theorem missing_stream_key_raises :
    yield_available_fieldsE ⟨some [⟨none, some []⟩]⟩ = .error "KeyError: stream" :=
  rfl

/-- C5 (amended): the walker never raises when every stream record carries
its `stream` and `metadata` keys; a missing root-breadcrumb entry or a
missing per-field `inclusion` key is tolerated (such fields are simply not
matchable), but a stream record lacking its name or metadata key raises. -/
theorem yield_available_fields_tolerance :
    (∀ c : Catalog,
      yield_available_fieldsE (CatalogRec.of c) = .ok (yield_available_fields c))
    ∧ ∀ (name : String) (m : Meta), (∀ e ∈ m, e.2.inclusion = none) →
        yield_stream_fields name m = [] := by
  constructor
  · exact yield_available_fieldsE_of
  · intro name m h
    unfold yield_stream_fields
    have hf : m.filter (eligible (matchable_inclusions m)) = [] := by
      apply List.filter_eq_nil_iff.mpr
      intro e he
      unfold eligible field_matchable
      rw [h e he]
      simp
    rw [hf]
    rfl

/-- Witness for C5 (amended) at a concrete catalog. -/
theorem yield_available_fields_tolerance_witness :
    yield_available_fieldsE (CatalogRec.of ⟨[⟨"s", [([], ⟨none, none⟩)]⟩]⟩) = .ok []
    ∧ yield_stream_fields "s"
        [([], ⟨none, none⟩), (["properties", "x"], ⟨none, some true⟩)] = [] := by
  constructor
  · have h := yield_available_fields_tolerance.1 ⟨[⟨"s", [([], ⟨none, none⟩)]⟩]⟩
    rw [h]
    rfl
  · exact yield_available_fields_tolerance.2 "s"
      [([], ⟨none, none⟩), (["properties", "x"], ⟨none, some true⟩)] (by decide)

/-- C6: `main` fails with the unused-patterns error exactly when some
compiled pattern is never the returned matching pattern of any walker field
and the ignore flag is unset; the error payload is the unused patterns'
original strings in ascending order, and in the error case the producer
arguments are never returned. -/
theorem main_unused_patterns_error {μ : Type} [DecidableEq μ]
    (M : μ → String → Bool) (compile : String → μ) (c : Catalog)
    (patterns_file : Option (List String)) (ign : Bool) :
    main M compile c patterns_file ign =
      (if (∃ p ∈ yield_patterns compile (patterns_file.getD ["**"]),
            ∀ f ∈ yield_available_fields c,
              (match_path M (yield_patterns compile (patterns_file.getD ["**"]))
                f.path).1 ≠ some p)
          ∧ ign = false
        then Except.error (sorted_strings
          (match_catalog M (yield_patterns compile (patterns_file.getD ["**"])) c).2.2)
        else Except.ok (c,
          (match_catalog M (yield_patterns compile (patterns_file.getD ["**"])) c).1,
          (match_catalog M (yield_patterns compile (patterns_file.getD ["**"])) c).2.1))
    ∧ List.Sorted (· ≤ ·) (sorted_strings
        (match_catalog M (yield_patterns compile (patterns_file.getD ["**"])) c).2.2)
    ∧ (sorted_strings
        (match_catalog M (yield_patterns compile (patterns_file.getD ["**"])) c).2.2).Perm
        ((match_catalog M (yield_patterns compile (patterns_file.getD ["**"])) c).2.2.map
          FieldPattern.string) := by
  refine ⟨?_, List.sorted_insertionSort _ _, List.perm_insertionSort _ _⟩
  have hlen : 0 < (match_catalog M
        (yield_patterns compile (patterns_file.getD ["**"])) c).2.2.length ↔
      (∃ p ∈ yield_patterns compile (patterns_file.getD ["**"]),
        ∀ f ∈ yield_available_fields c,
          (match_path M (yield_patterns compile (patterns_file.getD ["**"]))
            f.path).1 ≠ some p) := by
    rw [List.length_pos_iff_exists_mem]
    constructor
    · rintro ⟨q, hq⟩
      rcases (mem_unused_iff M _ c q).mp hq with ⟨hq1, hq2⟩
      exact ⟨q, hq1, hq2⟩
    · rintro ⟨p, hp1, hp2⟩
      exact ⟨p, (mem_unused_iff M _ c p).mpr ⟨hp1, hp2⟩⟩
  have hcl : main M compile c patterns_file ign =
      if 0 < (match_catalog M
            (yield_patterns compile (patterns_file.getD ["**"])) c).2.2.length
          ∧ ign = false
        then Except.error (sorted_strings
          (match_catalog M (yield_patterns compile (patterns_file.getD ["**"])) c).2.2)
        else Except.ok (c,
          (match_catalog M (yield_patterns compile (patterns_file.getD ["**"])) c).1,
          (match_catalog M (yield_patterns compile (patterns_file.getD ["**"])) c).2.1) :=
    rfl
  rw [hcl]
  exact if_congr (and_congr_left' hlen) rfl rfl

/-- C7: the catalog producer writes `selected=true` at each matched field's
breadcrumb of its stream; the stream-root `selected` flag is written only for
streams whose root inclusion is `"available"`, with value `true` exactly when
the stream has a matched field; other streams keep their root entry
untouched, and entries of non-matched breadcrumbs are untouched. -/
theorem produce_catalog_selected_writes (c : Catalog) (matched : List Field)
    (hb : ∀ f ∈ matched, f.breadcrumb.take 1 = ["properties"]) :
    (produce_catalog c matched).streams = c.streams.map (produce_stream matched)
    ∧ ∀ st : Stream,
      (∀ f ∈ matched, f.stream_name = st.stream →
        lookupProps (produce_stream matched st).metadata f.breadcrumb =
          some ⟨inclusionAt st.metadata f.breadcrumb, some true⟩)
      ∧ (inclusionAt st.metadata [] = some "available" →
        lookupProps (produce_stream matched st).metadata [] =
          some ⟨some "available",
            some (decide (0 <
              (matched.filter fun f => f.stream_name == st.stream).length))⟩)
      ∧ (inclusionAt st.metadata [] ≠ some "available" →
        lookupProps (produce_stream matched st).metadata [] = lookupProps st.metadata [])
      ∧ (∀ b : Breadcrumb, b ≠ [] →
          (∀ f ∈ matched, f.stream_name = st.stream → f.breadcrumb ≠ b) →
          lookupProps (produce_stream matched st).metadata b =
            lookupProps st.metadata b) := by
  have hbn : ∀ f ∈ matched, f.breadcrumb ≠ [] := by
    intro f hf hc
    have h2 := hb f hf
    rw [hc] at h2
    cases h2
  refine ⟨rfl, ?_⟩
  intro st
  have hsm : ∀ f ∈ (matched.filter fun f => f.stream_name == st.stream),
      f.breadcrumb ≠ [] :=
    fun f hf => hbn f (List.mem_of_mem_filter hf)
  refine ⟨?_, ?_, ?_, ?_⟩
  · intro f hf hname
    rw [produce_stream_metadata]
    have hfsm : f ∈ matched.filter (fun f => f.stream_name == st.stream) :=
      List.mem_filter.mpr ⟨hf, by rw [hname]; exact beq_self_eq_true _⟩
    exact lookupProps_annotMeta_of_mem _ _ _ hfsm (hbn f hf)
  · intro hroot
    rw [produce_stream_metadata]
    unfold annotMeta
    rw [inclusionAt_writeFold, if_pos hroot, lookupProps_writeSelected_self,
      inclusionAt_writeFold, hroot]
  · intro hroot
    rw [produce_stream_metadata]
    unfold annotMeta
    rw [inclusionAt_writeFold, if_neg hroot]
    exact lookupProps_writeFold_not_mem _ _ hsm
  · intro b hbne hnm
    rw [produce_stream_metadata]
    unfold annotMeta
    have hnm2 : ∀ f ∈ (matched.filter fun f => f.stream_name == st.stream),
        f.breadcrumb ≠ b := by
      intro f hf
      have hfm := List.mem_filter.mp hf
      exact hnm f hfm.1 (eq_of_beq hfm.2)
    by_cases hroot : inclusionAt (writeFold
        (matched.filter fun f => f.stream_name == st.stream) st.metadata) []
        = some "available"
    · rw [if_pos hroot, lookupProps_writeSelected_ne _ _ hbne,
        lookupProps_writeFold_not_mem _ _ hnm2]
    · rw [if_neg hroot, lookupProps_writeFold_not_mem _ _ hnm2]

/-- Witness for C7 at a concrete one-stream catalog with one matched field. -/
theorem produce_catalog_selected_writes_witness :
    lookupProps (produce_stream [⟨"s", ["properties", "x"], "s/x"⟩]
        ⟨"s", [([], ⟨some "available", none⟩),
          (["properties", "x"], ⟨some "available", none⟩)]⟩).metadata
      ["properties", "x"] = some ⟨some "available", some true⟩ := by
  have hb : ∀ f ∈ [(⟨"s", ["properties", "x"], "s/x"⟩ : Field)],
      f.breadcrumb.take 1 = ["properties"] := by
    intro f hf
    rw [List.mem_singleton.mp hf]
    rfl
  have h := (produce_catalog_selected_writes
    ⟨[⟨"s", [([], ⟨some "available", none⟩),
      (["properties", "x"], ⟨some "available", none⟩)]⟩]⟩
    [⟨"s", ["properties", "x"], "s/x"⟩] hb).2
    ⟨"s", [([], ⟨some "available", none⟩),
      (["properties", "x"], ⟨some "available", none⟩)]⟩
  exact h.1 _ (List.mem_singleton.mpr rfl) rfl

/-- C8: the catalog-mode pipeline is idempotent: matching and annotating the
already-annotated catalog with the same patterns changes nothing, because
`selected` writes alter neither field eligibility nor matching. -/
theorem catalog_mode_idempotent {μ : Type} [DecidableEq μ] (M : μ → String → Bool)
    (ps : List (FieldPattern μ)) (c : Catalog) :
    pipeline M ps (pipeline M ps c) = pipeline M ps c :=
  pipeline_idem M ps c

end SingerPathmatch
